import Mathlib

/-!
Verification of the go-codegenutil repository: a shallow embedding of the
  import-registry engine (codegenutil.go), the unused-import pruner
(unusedimports/unusedimports.go) and the template rendering pipeline
(codetemplate/codetemplate.go), with theorems settling the specification
claims about them.

Conventions of the embedding:
- Go strings are Lean `String` (or `List Char` where the code indexes bytes).
- Go maps are association lists; insertion overwrites the existing key.
- A Go function that can panic returns `Option`/`Except`; `none`/`error`
  is the panic.
- The blocking mutex of `FileImports` guards state in Go; the embedding is
  sequential state passing, which is what the lock guarantees.
- The `suggestPackageNames` callback protocol (the suggester calls the
  acceptance callback with candidate names until one is accepted) is
  embedded as the list of candidate names the suggester would produce, in
  order; `Add` consumes that list exactly as the callback protocol does.
- The classifier for non-ASCII identifier characters
  (`unicode.IsLetter`/`unicode.IsDigit` on runes at or above `0x80`) is an
  environment table; it is passed as an explicit parameter `uni` so that
  every theorem holds for any such table.
-/

/-- Package identifies a package by import path and declared package name
(codegenutil.go lines 30 to 32). -/
structure Package where
  importPath : String
  name : String
deriving DecidableEq, Repr

/-- ImportSpec is one entry in the import set of a file
(codegenutil.go lines 237 to 241). -/
structure ImportSpec where
  fileLocalPackageName : String
  pkg : Package
  isExplicit : Bool
deriving DecidableEq, Repr

/-- FileImports captures the imports of one file
(codegenutil.go lines 55 to 67).  The two Go maps are association lists;
the optional suggester field models the `suggestPackageNames` function
field, `none` standing for the nil default.  The `rwMutex` field has no
sequential content and is omitted. -/
structure FileImports where
  filePackage : Package
  specs : List ImportSpec
  byLocalPackageName : List (String × ImportSpec)
  byImportPath : List (String × ImportSpec)
  suggestPackageNames : Option (Package → List String)

/-- Lookup in the association-list model of a Go map of ImportSpec values. -/
def lookupMap (m : List (String × ImportSpec)) (k : String) : Option ImportSpec :=
  (m.find? (fun e => e.1 == k)).map (fun e => e.2)

/-- NewFileImports returns a registry with no imports
(codegenutil.go lines 116 to 129); the optional argument is the
CustomPackageNameSuggester option. -/
def NewFileImports (p : Package) (sugg : Option (Package → List String) := none) :
    FileImports :=
  { filePackage := p
    specs := []
    byLocalPackageName := []
    byImportPath := []
    suggestPackageNames := sugg }

/-- The default suggester tries the declared package name, then the name
followed by the decimal suffixes 1 up to 1000
(codegenutil.go lines 361 to 376), embedded as the candidate list it
feeds to the acceptance callback. -/
def defaultSuggestPackageNames (pkg : Package) : List String :=
  pkg.name :: (List.range 1000).map (fun i => pkg.name ++ toString (i + 1))

/-- The acceptance callback of `Add` (codegenutil.go lines 166 to 176)
applied to each candidate in turn: a candidate already present in
`byLocalPackageName` is rejected and the next one is tried; the first
free candidate becomes the new spec, registered in both maps and
appended to `specs`. -/
def acceptFirst (fi : FileImports) (pkg : Package) :
    List String → Option (ImportSpec × FileImports)
  | [] => none
  | s :: rest =>
    if (lookupMap fi.byLocalPackageName s).isSome then
      acceptFirst fi pkg rest
    else
      let spec : ImportSpec := ⟨s, pkg, s != pkg.name⟩
      some (spec,
        { fi with
          byLocalPackageName := (s, spec) :: fi.byLocalPackageName
          byImportPath := (pkg.importPath, spec) :: fi.byImportPath
          specs := fi.specs ++ [spec] })

/-- Add registers an import for the package (codegenutil.go lines 152
to 181).  A package whose import path is already present returns the
existing spec with the state untouched.  Otherwise the suggester (the
custom one if set, else the default) produces candidates and the first
acceptable one is registered.  The `none` result is the panic on line 178
when no suggestion was accepted.  The `al` argument is the `alias`
parameter of the Go signature (`alias` is reserved in Lean); the Go body
never reads it. -/
def FileImports.Add (fi : FileImports) (pkg : Package) (al : String) :
    Option (ImportSpec × FileImports) :=
  match lookupMap fi.byImportPath pkg.importPath with
  | some existingSpec => some (existingSpec, fi)
  | none =>
    let suggester := fi.suggestPackageNames.getD defaultSuggestPackageNames
    acceptFirst fi pkg (suggester pkg)

/-- Runs a sequence of Add calls in order; a call that panics aborts the
run, leaving the registry as it was. -/
def runAdds : FileImports → List (Package × String) → FileImports
  | fi, [] => fi
  | fi, (pkg, al) :: rest =>
    match fi.Add pkg al with
    | some (_, fi2) => runAdds fi2 rest
    | none => fi

/-! ### Registry lemmas -/

/-- The local aliases of all specs ever registered, in registration order. -/
def aliasesOf (fi : FileImports) : List String :=
  fi.specs.map (fun s => s.fileLocalPackageName)

/-- Internal invariant of the registry: the alias of every registered spec
is a key of the by-local-name map. -/
def RegistryInv (fi : FileImports) : Prop :=
  ∀ spec ∈ fi.specs, (lookupMap fi.byLocalPackageName spec.fileLocalPackageName).isSome

theorem lookupMap_cons (k : String) (v : ImportSpec) (m : List (String × ImportSpec))
    (key : String) :
    lookupMap ((k, v) :: m) key = if k == key then some v else lookupMap m key := by
  by_cases h : k == key <;> simp [lookupMap, List.find?, h]

theorem acceptFirst_some (fi : FileImports) (pkg : Package) (cands : List String)
    (spec : ImportSpec) (fi2 : FileImports)
    (h : acceptFirst fi pkg cands = some (spec, fi2)) :
    (lookupMap fi.byLocalPackageName spec.fileLocalPackageName) = none ∧
    spec.pkg = pkg ∧
    fi2.filePackage = fi.filePackage ∧
    fi2.specs = fi.specs ++ [spec] ∧
    fi2.byLocalPackageName = (spec.fileLocalPackageName, spec) :: fi.byLocalPackageName ∧
    fi2.byImportPath = (pkg.importPath, spec) :: fi.byImportPath ∧
    fi2.suggestPackageNames = fi.suggestPackageNames := by
  induction cands with
  | nil => simp [acceptFirst] at h
  | cons s rest ih =>
    by_cases hs : (lookupMap fi.byLocalPackageName s).isSome
    · rw [acceptFirst, if_pos hs] at h
      exact ih h
    · rw [acceptFirst, if_neg hs] at h
      simp only [Option.some.injEq, Prod.mk.injEq] at h
      obtain ⟨h1, h2⟩ := h
      subst h2
      rw [← h1]
      refine ⟨?_, rfl, rfl, rfl, rfl, rfl, rfl⟩
      exact Option.not_isSome_iff_eq_none.mp hs

theorem RegistryInv_preserved (fi : FileImports) (pkg : Package) (al : String)
    (spec : ImportSpec) (fi2 : FileImports)
    (h : fi.Add pkg al = some (spec, fi2))
    (hinv : RegistryInv fi) (hnd : (aliasesOf fi).Nodup) :
    RegistryInv fi2 ∧ (aliasesOf fi2).Nodup := by
  rw [FileImports.Add] at h
  cases hp : lookupMap fi.byImportPath pkg.importPath with
  | some s0 =>
    rw [hp] at h
    simp only [Option.some.injEq, Prod.mk.injEq] at h
    obtain ⟨h1, h2⟩ := h
    subst h2
    exact ⟨hinv, hnd⟩
  | none =>
    rw [hp] at h
    obtain ⟨hfree, _, _, hspecs, hlocal, _, _⟩ := acceptFirst_some _ _ _ _ _ h
    have hnotmem : spec.fileLocalPackageName ∉ aliasesOf fi := by
      intro hmem
      obtain ⟨t, ht, hta⟩ := List.mem_map.mp hmem
      have := hinv t ht
      rw [hta, hfree] at this
      simp at this
    constructor
    · intro t ht
      rw [hspecs] at ht
      rw [hlocal, lookupMap_cons]
      by_cases he : spec.fileLocalPackageName == t.fileLocalPackageName
      · simp [he]
      · rw [if_neg he]
        rcases List.mem_append.mp ht with h1 | h1
        · exact hinv t h1
        · simp only [List.mem_singleton] at h1
          subst h1
          simp at he
    · have : aliasesOf fi2 = aliasesOf fi ++ [spec.fileLocalPackageName] := by
        simp [aliasesOf, hspecs]
      rw [this]
      simp only [List.nodup_append, List.nodup_cons, List.not_mem_nil, not_false_iff,
        List.nodup_nil, and_true, true_and]
      constructor
      · exact hnd
      · intro a ha hb
        simp only [List.mem_singleton] at hb
        subst hb
        exact hnotmem ha

theorem runAdds_nodup (calls : List (Package × String)) (fi : FileImports)
    (hinv : RegistryInv fi) (hnd : (aliasesOf fi).Nodup) :
    (aliasesOf (runAdds fi calls)).Nodup := by
  induction calls generalizing fi with
  | nil => exact hnd
  | cons c rest ih =>
    rw [runAdds]
    cases h : fi.Add c.1 c.2 with
    | none => exact hnd
    | some r =>
      obtain ⟨hinv2, hnd2⟩ := RegistryInv_preserved fi c.1 c.2 r.1 r.2 h hinv hnd
      exact ih r.2 hinv2 hnd2

/-- C1: for every sequence of Add calls on one registry, under the default
suggester (`sugg = none`) or any custom suggester, the local aliases of
all ImportSpecs ever registered are pairwise distinct. -/
theorem add_aliases_pairwise_distinct (p : Package)
    (sugg : Option (Package → List String)) (calls : List (Package × String)) :
    ((runAdds (NewFileImports p sugg) calls).specs.map
      (fun s => s.fileLocalPackageName)).Pairwise (· ≠ ·) :=
  runAdds_nodup calls (NewFileImports p sugg)
    (fun t ht => by simp [NewFileImports] at ht) (by simp [aliasesOf, NewFileImports])

/-- C10: Add never reads its alias argument: both the returned spec and
the final registry state agree for any two alias strings on identical
starting states, so the choice of local name is made by the suggester
alone.  The equation is definitional because the Go body of Add never
mentions the parameter. -/
theorem add_independent_of_alias (fi : FileImports) (pkg : Package) (a b : String) :
    fi.Add pkg a = fi.Add pkg b := rfl

theorem add_lookup_some (fi : FileImports) (pkg : Package) (al : String)
    (spec : ImportSpec) (fi2 : FileImports)
    (h : fi.Add pkg al = some (spec, fi2)) :
    lookupMap fi2.byImportPath pkg.importPath = some spec := by
  rw [FileImports.Add] at h
  cases hp : lookupMap fi.byImportPath pkg.importPath with
  | some s0 =>
    rw [hp] at h
    simp only [Option.some.injEq, Prod.mk.injEq] at h
    obtain ⟨h1, h2⟩ := h
    subst h1; subst h2
    exact hp
  | none =>
    rw [hp] at h
    obtain ⟨_, _, _, _, _, hpath, _⟩ := acceptFirst_some _ _ _ _ _ h
    rw [hpath, lookupMap_cons]
    simp

/-- C2: Add is idempotent per import path.  After one successful Add, a
second Add of the same package (with any alias argument) returns the
identical spec and leaves the registry untouched; the first call grew
`specs` by at most one; and the second call behaves the same under any
replacement suggester, showing the suggester is not consulted when the
path is already present. -/
theorem add_idempotent (fi : FileImports) (pkg : Package) (a b : String)
    (spec : ImportSpec) (fi2 : FileImports)
    (h : fi.Add pkg a = some (spec, fi2)) :
    fi2.Add pkg b = some (spec, fi2) ∧
    fi2.specs.length ≤ fi.specs.length + 1 ∧
    ∀ g, FileImports.Add { fi2 with suggestPackageNames := g } pkg b =
      some (spec, { fi2 with suggestPackageNames := g }) := by
  have hl := add_lookup_some fi pkg a spec fi2 h
  refine ⟨?_, ?_, ?_⟩
  · rw [FileImports.Add, hl]
  · rw [FileImports.Add] at h
    cases hp : lookupMap fi.byImportPath pkg.importPath with
    | some s0 =>
      rw [hp] at h
      simp only [Option.some.injEq, Prod.mk.injEq] at h
      rw [← h.2]
      exact Nat.le_succ _
    | none =>
      rw [hp] at h
      obtain ⟨_, _, _, hspecs, _, _, _⟩ := acceptFirst_some _ _ _ _ _ h
      rw [hspecs]
      simp
  · intro g
    rw [FileImports.Add,
      show lookupMap ({ fi2 with suggestPackageNames := g } : FileImports).byImportPath
          pkg.importPath = some spec from hl]

def mathPkg : Package := ⟨"math", "math"⟩

def altMathPkg : Package := ⟨"alternative/math", "math"⟩

def mathSpec : ImportSpec := ⟨"math", mathPkg, false⟩

def fileImports0 : FileImports := NewFileImports ⟨"abc/mypkg", "mypkg"⟩ none

/-- Concrete registry state reached by adding `mathPkg` to `fileImports0`. -/
def fileImports1 : FileImports :=
  { filePackage := ⟨"abc/mypkg", "mypkg"⟩
    specs := [mathSpec]
    byLocalPackageName := [("math", mathSpec)]
    byImportPath := [("math", mathSpec)]
    suggestPackageNames := none }

/-- Witness for C2 at a concrete input: adding the math package twice
returns the identical spec both times and the registry state is
unchanged by the second call. -/
theorem add_idempotent_witness :
    FileImports.Add fileImports1 mathPkg "zzz" = some (mathSpec, fileImports1) ∧
    fileImports1.specs.length ≤ fileImports0.specs.length + 1 :=
  ⟨(add_idempotent fileImports0 mathPkg "" "zzz" mathSpec fileImports1 rfl).1,
   (add_idempotent fileImports0 mathPkg "" "zzz" mathSpec fileImports1 rfl).2.1⟩

theorem acceptFirst_all_taken (fi : FileImports) (pkg : Package) :
    ∀ cands : List String,
      (∀ s ∈ cands, (lookupMap fi.byLocalPackageName s).isSome) →
      acceptFirst fi pkg cands = none
  | [], _ => rfl
  | s :: rest, h => by
    rw [acceptFirst, if_pos (h s (List.mem_cons_self s rest))]
    exact acceptFirst_all_taken fi pkg rest (fun t ht => h t (List.mem_cons_of_mem s ht))

/-- C3: on a registry using the default suggester, a package whose import
path is not yet present but whose declared name and all 1000 numeric
suffix variants are already taken as aliases makes Add fail fatally: the
result is `none`, the embedding of the panic on codegenutil.go line 178,
rather than any returned spec. -/
theorem add_panics_when_exhausted (fi : FileImports) (pkg : Package) (al : String)
    (hs : fi.suggestPackageNames = none)
    (hp : lookupMap fi.byImportPath pkg.importPath = none)
    (htaken : ∀ s ∈ defaultSuggestPackageNames pkg,
      (lookupMap fi.byLocalPackageName s).isSome) :
    fi.Add pkg al = none := by
  rw [FileImports.Add, hp, hs]
  exact acceptFirst_all_taken fi pkg (defaultSuggestPackageNames pkg) htaken

def exhaustPkg : Package := ⟨"xp", "x"⟩

def dummySpec : ImportSpec := ⟨"d", exhaustPkg, false⟩

/-- Registry in which every candidate the default suggester can produce
for `exhaustPkg` is already a taken alias. -/
def fiTaken : FileImports :=
  { filePackage := ⟨"f", "f"⟩
    specs := []
    byLocalPackageName := (defaultSuggestPackageNames exhaustPkg).map (fun s => (s, dummySpec))
    byImportPath := []
    suggestPackageNames := none }

theorem lookup_pairs_isSome (d : ImportSpec) :
    ∀ (l : List String) (s : String), s ∈ l →
      (lookupMap (l.map (fun t => (t, d))) s).isSome
  | [], s, h => absurd h (List.not_mem_nil s)
  | t :: rest, s, h => by
    rw [List.map_cons, lookupMap_cons]
    by_cases he : t == s
    · simp [he]
    · rw [if_neg (by simpa using he)]
      rcases List.mem_cons.mp h with h1 | h1
      · exact absurd (by simp [h1]) he
      · exact lookup_pairs_isSome d rest s h1

/-- Witness for C3: at the concrete exhausted registry, Add returns
`none` (the panic). -/
theorem add_panics_witness : FileImports.Add fiTaken exhaustPkg "" = none :=
  add_panics_when_exhausted fiTaken exhaustPkg "" rfl rfl
    (fun s hs => lookup_pairs_isSome dummySpec (defaultSuggestPackageNames exhaustPkg) s hs)

/-! ### C4: the default suggester takes the first free candidate -/

theorem toDigitsCore_length_le (b : Nat) :
    ∀ (f n : Nat) (ds : List Char), ds.length ≤ (Nat.toDigitsCore b f n ds).length := by
  intro f
  induction f with
  | zero =>
    intro n ds
    exact Nat.le_refl _
  | succ f ih =>
    intro n ds
    simp only [Nat.toDigitsCore]
    by_cases h : n / b = 0
    · rw [if_pos h]
      exact Nat.le_succ _
    · rw [if_neg h]
      exact Nat.le_trans (Nat.le_succ ds.length) (ih (n / b) ((n % b).digitChar :: ds))

theorem toDigitsCore_length_lt (b f n : Nat) (ds : List Char) :
    ds.length < (Nat.toDigitsCore b (f + 1) n ds).length := by
  simp only [Nat.toDigitsCore]
  by_cases h : n / b = 0
  · rw [if_pos h]
    exact Nat.lt_succ_self _
  · rw [if_neg h]
    exact Nat.lt_of_lt_of_le (Nat.lt_succ_self ds.length)
      (toDigitsCore_length_le b f (n / b) ((n % b).digitChar :: ds))

theorem toString_nat_length_pos (k : Nat) : 0 < (toString k).length := by
  show 0 < (Nat.toDigits 10 k).asString.length
  rw [List.length_asString, Nat.toDigits]
  exact toDigitsCore_length_lt 10 k k []

theorem append_toString_nat_ne (s : String) (k : Nat) : s ++ toString k ≠ s := by
  intro h
  have hl := congrArg String.length h
  rw [String.length_append] at hl
  have := toString_nat_length_pos k
  omega

theorem acceptFirst_range' (fi : FileImports) (pkg : Package) (g : Nat → String) :
    ∀ (len start k : Nat), start ≤ k → k < start + len →
      (∀ j, start ≤ j → j < k → (lookupMap fi.byLocalPackageName (g j)).isSome) →
      lookupMap fi.byLocalPackageName (g k) = none →
      ∃ fi2, acceptFirst fi pkg ((List.range' start len).map g) =
        some (⟨g k, pkg, g k != pkg.name⟩, fi2) := by
  intro len
  induction len with
  | zero =>
    intro start k h1 h2 _ _
    omega
  | succ len ih =>
    intro start k h1 h2 htaken hfree
    rw [List.range'_succ, List.map_cons]
    by_cases he : start = k
    · subst he
      rw [acceptFirst, if_neg (by rw [hfree]; simp)]
      exact ⟨_, rfl⟩
    · have hlt : start < k := Nat.lt_of_le_of_ne h1 he
      rw [acceptFirst, if_pos (htaken start (Nat.le_refl _) hlt)]
      exact ih (start + 1) k hlt (by omega) (fun j hj1 hj2 => htaken j (by omega) hj2) hfree

/-- C4: with the default suggester (`suggestPackageNames = none`) and a
fresh import path, Add assigns the declared package name when it is free
(with `isExplicit = false`), and otherwise the declared name followed by
the least decimal suffix `k` between 1 and 1000 whose alias is free
(with `isExplicit = true`): the candidates are tried in increasing
order, so every smaller suffix being taken pins the result. -/
theorem default_suggester_first_free (fi : FileImports) (pkg : Package) (al : String)
    (hs : fi.suggestPackageNames = none)
    (hp : lookupMap fi.byImportPath pkg.importPath = none) :
    (lookupMap fi.byLocalPackageName pkg.name = none →
      ∃ fi2, fi.Add pkg al = some (⟨pkg.name, pkg, false⟩, fi2)) ∧
    (∀ k, 1 ≤ k → k ≤ 1000 →
      (lookupMap fi.byLocalPackageName pkg.name).isSome →
      (∀ j, 1 ≤ j → j < k →
        (lookupMap fi.byLocalPackageName (pkg.name ++ toString j)).isSome) →
      lookupMap fi.byLocalPackageName (pkg.name ++ toString k) = none →
      ∃ fi2, fi.Add pkg al = some (⟨pkg.name ++ toString k, pkg, true⟩, fi2)) := by
  have key : fi.Add pkg al = acceptFirst fi pkg (defaultSuggestPackageNames pkg) := by
    rw [FileImports.Add, hp, hs]
    exact rfl
  constructor
  · intro hfree
    rw [key, defaultSuggestPackageNames, acceptFirst, if_neg (by rw [hfree]; simp)]
    simp only [bne_self_eq_false]
    exact ⟨_, rfl⟩
  · intro k hk1 hk2 hname hprev hfree
    rw [key, defaultSuggestPackageNames, acceptFirst, if_pos hname]
    have hmap : (List.range 1000).map (fun i => pkg.name ++ toString (i + 1)) =
        (List.range' 1 1000).map (fun j => pkg.name ++ toString j) := by
      rw [List.range'_eq_map_range, List.map_map]
      apply List.map_congr_left
      intro i _
      simp [Nat.add_comm]
    rw [hmap]
    obtain ⟨fi2, hacc⟩ := acceptFirst_range' fi pkg (fun j => pkg.name ++ toString j)
      1000 1 k hk1 (by omega) (fun j h1 h2 => hprev j h1 h2) hfree
    refine ⟨fi2, ?_⟩
    rw [hacc, show (pkg.name ++ toString k != pkg.name) = true from
      bne_iff_ne.mpr (append_toString_nat_ne pkg.name k)]

/-- Witness for C4 at one concrete input: in a registry whose only taken
alias is "math", adding a second package also declared "math" yields the
alias "math1". -/
theorem default_suggester_witness :
    ∃ fi2, FileImports.Add fileImports1 altMathPkg "" =
      some (⟨"math1", altMathPkg, true⟩, fi2) := by
  obtain ⟨fi2, h⟩ := (default_suggester_first_free fileImports1 altMathPkg "" rfl rfl).2 1
    (Nat.le_refl 1) (by omega) (by decide)
    (fun j h1 h2 => absurd (Nat.lt_of_le_of_lt h1 h2) (Nat.lt_irrefl 1)) rfl
  exact ⟨fi2, h⟩

/-! ### C5: the formatted import block -/

/-- joinSep models strings.Join with the given separator. -/
def joinSep (sep : String) : List String → String
  | [] => ""
  | [x] => x
  | x :: y :: xs => x ++ sep ++ joinSep sep (y :: xs)

/-- List returns the import specs sorted by import path
(codegenutil.go lines 184 to 194).  The Go code copies `specs` and sorts
with `sort.Slice` under the strict comparator on import paths; a merge
sort under the reflexive comparator on the same key produces that order
(in the states the registry builds, specs have pairwise distinct import
paths, so the sorted sequence is unique). -/
def FileImports.List (fi : FileImports) :=
  fi.specs.mergeSort (fun a b => decide (a.pkg.importPath ≤ b.pkg.importPath))

/-- Models the %q verb of fmt on an import path: the double-quoted Go
string literal, quotes and backslashes escaped (the further escape
classes of strconv.Quote concern characters that cannot occur in a
valid path and are not expanded). -/
def quoteChar : Char := Char.ofNat 34

def backslashChar : Char := Char.ofNat 92

def goQuote (s : String) : String :=
  ⟨[quoteChar] ++ s.data.flatMap
    (fun c => if c = quoteChar ∨ c = backslashChar then [backslashChar, c] else [c]) ++
    [quoteChar]⟩

/-- Line: tab, alias, space, quoted path, formatted per
`fmt.Sprintf("\t%s %q", ...)` on codegenutil.go lines 203 and 205. -/
def aliasedLine (i : ImportSpec) : String :=
  "\t" ++ i.fileLocalPackageName ++ " " ++ goQuote i.pkg.importPath

/-- Line: tab, quoted path, per `fmt.Sprintf("\t%q", ...)` on line 207. -/
def simpleLine (i : ImportSpec) : String :=
  "\t" ++ goQuote i.pkg.importPath

/-- Specs routed to `blankLines` by the if chain of the loop on
codegenutil.go lines 201 to 209: explicit alias equal to the blank
identifier. -/
def blankLines (fi : FileImports) : List String :=
  (fi.List.filter (fun i => i.isExplicit && i.fileLocalPackageName == "_")).map aliasedLine

/-- Specs routed to `aliasedLines`: the first branch failed and the spec
is explicit. -/
def aliasedLines (fi : FileImports) : List String :=
  (fi.List.filter (fun i =>
    !(i.isExplicit && i.fileLocalPackageName == "_") && i.isExplicit)).map aliasedLine

/-- Specs routed to `simpleLines`: not explicit. -/
def simpleLines (fi : FileImports) : List String :=
  (fi.List.filter (fun i =>
    !(i.isExplicit && i.fileLocalPackageName == "_") && !i.isExplicit)).map simpleLine

/-- addSection from codegenutil.go lines 211 to 219: skip an empty
section, append the joined lines with a trailing newline, and prefix the
very first section with a newline. -/
def addSection (sections : List String) (lines : List String) : List String :=
  if lines = [] then sections
  else
    let s := joinSep "\n" lines ++ "\n"
    let sections2 := sections ++ [s]
    if sections2.length = 1 then ["\n" ++ s] else sections2

/-- String prints the Go import block (codegenutil.go lines 197 to 225):
the three sections are added in the order simple, aliased, blank and the
result is wrapped in `import (...)`. -/
def FileImports.String (fi : FileImports) :=
  "import (" ++
    joinSep "\n" (addSection (addSection (addSection [] (simpleLines fi))
      (aliasedLines fi)) (blankLines fi)) ++ ")"

/-- Import block as the specification describes it: the nonempty
sections among (1) unaliased, (2) explicitly aliased excluding the
discard alias, (3) discard-aliased, in that order, each a newline-joined
line list, separated from each other by a blank line, inside
`import (...)`. -/
def specImportBlock (fi : FileImports) : String :=
  let blocks := (([simpleLines fi, aliasedLines fi, blankLines fi].filter
    (fun b => !b.isEmpty)).map (joinSep "\n"))
  if blocks.isEmpty then "import (" ++ ")"
  else "import (" ++ "\n" ++ joinSep ("\n" ++ "\n") blocks ++ "\n" ++ ")"

theorem assemble_eq (A B C : List String) :
    "import (" ++ joinSep "\n" (addSection (addSection (addSection [] A) B) C) ++ ")" =
    (if (([A, B, C].filter (fun b => !b.isEmpty)).map (joinSep "\n")).isEmpty then
      "import (" ++ ")"
    else
      "import (" ++ "\n" ++
        joinSep ("\n" ++ "\n") (([A, B, C].filter (fun b => !b.isEmpty)).map (joinSep "\n")) ++
        "\n" ++ ")") := by
  by_cases hA : A = [] <;> by_cases hB : B = [] <;> by_cases hC : C = [] <;>
    simp [addSection, joinSep, hA, hB, hC, String.append_assoc] <;> rfl

/-- C5: the printed import block consists of the three claim sections in
order, each emitted only when nonempty, blank-line separated, inside an
`import (...)` wrapper; and the underlying List is ordered by import
path, so the lines of each section are in import-path order. -/
theorem string_formats_three_sections (fi : FileImports) :
    fi.String = specImportBlock fi ∧
    fi.List.Pairwise (fun a b => a.pkg.importPath ≤ b.pkg.importPath) := by
  constructor
  · rw [FileImports.String, specImportBlock]
    exact assemble_eq (simpleLines fi) (aliasedLines fi) (blankLines fi)
  · have h := @List.sorted_mergeSort ImportSpec
      (fun a b => decide (a.pkg.importPath ≤ b.pkg.importPath))
      (fun a b c hab hbc =>
        decide_eq_true (le_trans (of_decide_eq_true hab) (of_decide_eq_true hbc)))
      (fun a b => by
        rcases le_total a.pkg.importPath b.pkg.importPath with h | h <;> simp [h])
      fi.specs
    exact h.imp (fun hd => of_decide_eq_true hd)

/-! ### C7: formatting a symbol against a registry -/

/-- GoSymbol embeds the Symbol type, a (package, identifier name) pair
(codegenutil.go lines 256 to 259); the name Symbol itself collides with
a library declaration. -/
structure GoSymbol where
  pkg : Package
  name : String
deriving DecidableEq, Repr

/-- FormatEnsureImported (codegenutil.go lines 279 to 284): a symbol
whose import path equals that of the file package renders as the bare
name, with the registry untouched; otherwise Add supplies the alias and
the result is `alias.name` together with the state Add produced.  The
`none` result propagates the Add panic. -/
def GoSymbol.FormatEnsureImported (s : GoSymbol) (imports : FileImports) :
    Option (String × FileImports) :=
  if s.pkg.importPath = imports.filePackage.importPath then
    some (s.name, imports)
  else
    match imports.Add s.pkg "" with
    | none => none
    | some (spec, fi2) => some (spec.fileLocalPackageName ++ "." ++ s.name, fi2)

/-- C7: formatting a symbol of the file package itself returns the bare
name and leaves the registry completely unchanged; formatting any other
symbol (package identity being by import path, per the data model of the
specification) returns `alias.name` with the alias and state produced by
Add.  The first hypothesis is stated on import paths, which is what
package equality means for the registry and is implied by equality of
the packages. -/
theorem format_self_bare_name (s : GoSymbol) (fi : FileImports) :
    (s.pkg.importPath = fi.filePackage.importPath →
      s.FormatEnsureImported fi = some (s.name, fi)) ∧
    (s.pkg.importPath ≠ fi.filePackage.importPath →
      ∀ spec fi2, fi.Add s.pkg "" = some (spec, fi2) →
        s.FormatEnsureImported fi =
          some (spec.fileLocalPackageName ++ "." ++ s.name, fi2)) := by
  constructor
  · intro h
    rw [GoSymbol.FormatEnsureImported, if_pos h]
  · intro h spec fi2 hadd
    rw [GoSymbol.FormatEnsureImported, if_neg h, hadd]

/-- Witness for C7: a same-package symbol formats to its bare name with
no state change, and a foreign symbol formats to the qualified name with
its import registered. -/
theorem format_self_bare_name_witness :
    GoSymbol.FormatEnsureImported ⟨⟨"abc/xyz", "xyz"⟩, "Foo"⟩
        (NewFileImports ⟨"abc/xyz", "xyz"⟩ none) =
      some ("Foo", NewFileImports ⟨"abc/xyz", "xyz"⟩ none) ∧
    GoSymbol.FormatEnsureImported ⟨mathPkg, "Max"⟩ fileImports0 =
      some ("math.Max", fileImports1) := by
  constructor
  · exact (format_self_bare_name ⟨⟨"abc/xyz", "xyz"⟩, "Foo"⟩
      (NewFileImports ⟨"abc/xyz", "xyz"⟩ none)).1 rfl
  · exact (format_self_bare_name ⟨mathPkg, "Max"⟩ fileImports0).2
      (by decide) mathSpec fileImports1 rfl

/-! ### C9: Execute writes nothing on error -/

/-- Inner loop of strings.ReplaceAll for a nonempty pattern, with fuel
bounded by the input length (every step consumes at least one
character). -/
def replaceAllAux (pat rep : List Char) : Nat → List Char → List Char
  | 0, rest => rest
  | Nat.succ fuel, rest =>
    match rest with
    | [] => []
    | c :: cs =>
      if pat.isPrefixOf (c :: cs) then
        rep ++ replaceAllAux pat rep fuel ((c :: cs).drop pat.length)
      else
        c :: replaceAllAux pat rep fuel cs

/-- Models strings.ReplaceAll: every non-overlapping occurrence of `pat`
replaced by `rep`; an empty pattern inserts `rep` at every character
boundary including both ends, as the Go function does. -/
def replaceAll (s pat rep : String) : String :=
  match pat.data with
  | [] => ⟨rep.data ++ s.data.flatMap (fun c => c :: rep.data)⟩
  | _ => ⟨replaceAllAux pat.data rep.data s.data.length s.data⟩

/-- Template models the state a codetemplate.Template carries into one
Execute call (codetemplate.go lines 56 to 65 and 116 to 145): the two
placeholder tokens, the outcome of cloning the parsed template, the
outcome of executing the clone against the given data (the text of pass
one, produced by the external engine), and the optional formatter
(`none` is the KeepUnusedImports configuration, otherwise the
prune-unparsed hook, a function from filename and code to a result). -/
structure Template where
  importsPlaceholder : String
  headerPlaceholder : String
  cloneResult : Except String Unit
  run : Except String String
  formatter : Option (String → String → Except String String)

/-- Placeholder substitution followed by the optional formatter
(codetemplate.go lines 129 to 135): both placeholder tokens are replaced
using the registry-format callback, then the formatter runs on the
result when one is configured. -/
def substituteAndFormat (t : Template) (pass1Buf : String)
    (fmtImports : Bool → String) : Except String String :=
  let withImports := replaceAll pass1Buf t.importsPlaceholder (fmtImports false)
  let withHeader := replaceAll withImports t.headerPlaceholder (fmtImports true)
  match t.formatter with
  | none => Except.ok withHeader
  | some f => f "" withHeader

/-- Final stage of Execute (codetemplate.go lines 136 to 144): a
formatter error is wrapped and surfaced with the writer untouched;
otherwise the single write of the fully formatted text happens. -/
def writeStage (wr : List String) : Except String String → Except String Unit × List String
  | Except.error e => (Except.error ("error formatting template output: " ++ e), wr)
  | Except.ok out => (Except.ok (), wr ++ [out])

/-- Execute (codetemplate.go lines 116 to 145): clone, run pass one into
an intermediate buffer, substitute both placeholders, run the optional
formatter, and only then write to the output writer.  The writer is the
list of chunks written so far; every error path returns it untouched. -/
def Template.Execute (t : Template) (fmtImports : Bool → String)
    (wr : List String) : Except String Unit × List String :=
  match t.cloneResult with
  | Except.error e => (Except.error ("error with Clone: " ++ e), wr)
  | Except.ok _ =>
    match t.run with
    | Except.error e => (Except.error e, wr)
    | Except.ok pass1Buf =>
      writeStage wr (substituteAndFormat t pass1Buf fmtImports)

/-- C9: whenever Execute surfaces an error (clone failure, template
execution failure, or formatter failure), the output writer is exactly
as it was: no partial output is ever emitted alongside an error. -/
theorem execute_error_writes_nothing (t : Template) (fmtImports : Bool → String)
    (wr : List String) (e : String)
    (h : (t.Execute fmtImports wr).1 = Except.error e) :
    (t.Execute fmtImports wr).2 = wr := by
  rw [Template.Execute] at h ⊢
  revert h
  cases t.cloneResult with
  | error ce => intro h; rfl
  | ok u =>
    cases t.run with
    | error re => intro h; rfl
    | ok pass1 =>
      intro h
      have h2 : (writeStage wr (substituteAndFormat t pass1 fmtImports)).1 =
        Except.error e := h
      show (writeStage wr (substituteAndFormat t pass1 fmtImports)).2 = wr
      cases hf : substituteAndFormat t pass1 fmtImports with
      | error fe => rfl
      | ok out =>
        rw [hf] at h2
        simp [writeStage] at h2

/-- Template whose pass-one execution fails, as when a referenced data
key is missing under the missingkey=error option. -/
def failingTemplate : Template :=
  { importsPlaceholder := "<PLACEHOLDER A>"
    headerPlaceholder := "<PLACEHOLDER B>"
    cloneResult := Except.ok ()
    run := Except.error "map has no entry for key"
    formatter := none }

/-- Witness for C9: the failing template leaves a nonempty writer
exactly as it was. -/
theorem execute_error_writes_nothing_witness :
    (failingTemplate.Execute (fun _ => "import ()") ["previous chunk"]).2 =
      ["previous chunk"] :=
  execute_error_writes_nothing failingTemplate (fun _ => "import ()")
    ["previous chunk"] "map has no entry for key" rfl

/-! ### C6: AssumedPackageName and the path model

The functions of the Go standard `path` and `strconv` packages that
AssumedPackageName calls are modelled here on `List Char`.  `Base`,
`Dir` and `Split` follow the Go sources directly; `Clean` follows the
documented lexical rules of path.Clean (merge slashes, drop dot
segments, resolve dotdot segments, with the special root and empty
cases). -/

/-- Trailing slash removal loop of Go path.Base. -/
def dropTrailSlashes (cs : List Char) : List Char :=
  (cs.reverse.dropWhile (fun c => c == '/')).reverse

/-- The suffix of the path after its last slash (strings.LastIndex plus
one in Go path.Base). -/
def afterLastSlash (cs : List Char) : List Char :=
  (cs.reverse.takeWhile (fun c => c != '/')).reverse

/-- Models Go path.Base: the empty path gives dot, trailing slashes are
removed, an all-slash path gives a slash, and otherwise the last
element is returned. -/
def goPathBase (cs : List Char) : List Char :=
  if cs = [] then ['.']
  else
    let cs1 := dropTrailSlashes cs
    if cs1 = [] then ['/']
    else afterLastSlash cs1

/-- The first component of Go path.Split: everything up to and
including the final slash. -/
def dirPart (cs : List Char) : List Char :=
  (cs.reverse.dropWhile (fun c => c != '/')).reverse

/-- Split on slashes, keeping empty segments; the result is always
nonempty. -/
def splitSlash : List Char → List (List Char)
  | [] => [[]]
  | c :: rest =>
    match splitSlash rest with
    | [] => [[]]
    | s :: ss => if c = '/' then [] :: s :: ss else (c :: s) :: ss

/-- Join segments with slashes, the inverse of splitSlash. -/
def joinSlash : List (List Char) → List Char
  | [] => []
  | [s] => s
  | s :: t :: ss => s ++ '/' :: joinSlash (t :: ss)

/-- Effect of a dotdot segment on the kept-segment stack, per the
documented rules of Go path.Clean: pop the previous segment when one is
there and poppable, drop the dotdot at the root, keep it when relative
with nothing left to pop. -/
def popDotDot (rooted : Bool) : List (List Char) → List (List Char)
  | [] => if rooted then [] else [['.', '.']]
  | t :: acc2 => if t = ['.', '.'] then ['.', '.'] :: t :: acc2 else acc2

/-- Stack pass over the segments implementing the documented lexical
rules of Go path.Clean: empty and dot segments vanish; a dotdot segment
acts through popDotDot; other segments are kept. -/
def cleanSegs (rooted : Bool) : List (List Char) → List (List Char) → List (List Char)
  | [], acc => acc.reverse
  | s :: rest, acc =>
    if s = [] ∨ s = ['.'] then cleanSegs rooted rest acc
    else if s = ['.', '.'] then cleanSegs rooted rest (popDotDot rooted acc)
    else cleanSegs rooted rest (s :: acc)

/-- Models Go path.Clean through the documented lexical rules. -/
def goPathClean (cs : List Char) : List Char :=
  if cs = [] then ['.']
  else
    let rooted := cs.head? == some '/'
    let body := joinSlash (cleanSegs rooted (splitSlash cs) [])
    if rooted then '/' :: body
    else if body = [] then ['.'] else body

/-- Models Go path.Dir: the directory part of the split, cleaned. -/
def goPathDir (cs : List Char) : List Char :=
  goPathClean (dirPart cs)

/-- Decimal value of a digit list, most significant first. -/
def digitsVal (ds : List Char) : Nat :=
  ds.foldl (fun n c => n * 10 + (c.toNat - '0'.toNat)) 0

/-- Success condition of Go strconv.Atoi on a 64-bit target: an optional
sign, at least one decimal digit, and a value inside the int64 range.
A syntax error or an out-of-range value makes Atoi return a non-nil
error, which is all AssumedPackageName inspects. -/
def goAtoiOk (cs : List Char) : Bool :=
  match cs with
  | [] => false
  | '+' :: ds =>
    !ds.isEmpty && ds.all (fun c => c.isDigit) && decide (digitsVal ds ≤ 2 ^ 63 - 1)
  | '-' :: ds =>
    !ds.isEmpty && ds.all (fun c => c.isDigit) && decide (digitsVal ds ≤ 2 ^ 63)
  | ds =>
    !ds.isEmpty && ds.all (fun c => c.isDigit) && decide (digitsVal ds ≤ 2 ^ 63 - 1)

/-- The version-segment test the code applies (codegenutil.go lines
337 to 344): strings.HasPrefix with the letter v, then strconv.Atoi on
the remainder with a nil error. -/
def vAtoiSeg (s : List Char) : Bool :=
  match s with
  | 'v' :: rest => goAtoiOk rest
  | _ => false

/-- The version-segment wording of the claim: the letter v followed by
one or more decimal digits. -/
def vDigitsSeg (s : List Char) : Bool :=
  match s with
  | 'v' :: rest => !rest.isEmpty && rest.all (fun c => c.isDigit)
  | _ => false

/-- Models strings.TrimPrefix with the literal prefix g, o, dash
(codegenutil.go line 345). -/
def trimGoDash : List Char → List Char
  | 'g' :: 'o' :: '-' :: rest => rest
  | cs => cs

/-- The notIdentifier predicate of AssumedPackageName (codegenutil.go
lines 330 to 335): the character is no ASCII letter, digit or
underscore, and not a character at or above 0x80 accepted by the
environment classifier `uni` (unicode.IsLetter or unicode.IsDigit). -/
def notIdentifier (uni : Char → Bool) (ch : Char) : Bool :=
  !((decide ('a' ≤ ch) && decide (ch ≤ 'z')) ||
    (decide ('A' ≤ ch) && decide (ch ≤ 'Z')) ||
    (decide ('0' ≤ ch) && decide (ch ≤ '9')) ||
    ch == '_' ||
    (decide (0x80 ≤ ch.toNat) && uni ch))

/-- The version adjustment of AssumedPackageName (codegenutil.go lines
337 to 344): when the base is the letter v followed by an Atoi-accepted
remainder and the directory of the path is not dot, the base of that
directory replaces the base. -/
def versionAdjustedBase (importPath : List Char) : List Char :=
  let base := goPathBase importPath
  if vAtoiSeg base then
    if goPathDir importPath ≠ ['.'] then goPathBase (goPathDir importPath) else base
  else base

/-- Name inference of AssumedPackageName on character lists
(codegenutil.go lines 336 to 348): version-adjusted base, go- removal,
truncation at the first non-identifier character (strings.IndexFunc). -/
def assumedNameChars (uni : Char → Bool) (importPath : List Char) : List Char :=
  (trimGoDash (versionAdjustedBase importPath)).takeWhile (fun c => !notIdentifier uni c)

/-- AssumedPackageName (codegenutil.go lines 297 to 350) builds the
package with the name inferred from the import path; `uni` is the
environment classifier for non-ASCII identifier characters. -/
def AssumedPackageName (uni : Char → Bool) (importPath : String) : Package :=
  ⟨importPath, ⟨assumedNameChars uni importPath.data⟩⟩

/-- ExplicitPackageName (codegenutil.go lines 354 to 356). -/
def ExplicitPackageName (importPath packageName : String) : Package :=
  ⟨importPath, packageName⟩

/-- Base segment selection as claim C6 words it, on the segment list of
the path: the trailing path segment, or the parent segment instead when
the trailing one passes the version test. -/
def specBaseSeg (vMatch : List Char → Bool) (segs : List (List Char)) : List Char :=
  match segs.reverse with
  | [] => []
  | [l] => l
  | l :: p :: _ => if vMatch l then p else l

/-- Full claim-side inference: claimed base segment, go- removal,
truncation. -/
def specInferName (uni : Char → Bool) (vMatch : List Char → Bool)
    (segs : List (List Char)) : List Char :=
  (trimGoDash (specBaseSeg vMatch segs)).takeWhile (fun c => !notIdentifier uni c)

/-- C6 counterexample: the code drops any segment strconv.Atoi accepts
after the v, including signed numbers, where the claim drops only
v-digits segments.  On the path a/v-1 the code infers the name a while
the claimed rule infers v, so the claimed description of the inference
function is false at this input. -/
theorem assumed_name_counterexample :
    (AssumedPackageName (fun _ => false) "a/v-1").name ≠
      String.mk (specInferName (fun _ => false) vDigitsSeg (splitSlash ("a/v-1").data)) ∧
    (AssumedPackageName (fun _ => false) "a/v-1").name = "a" ∧
    String.mk (specInferName (fun _ => false) vDigitsSeg (splitSlash ("a/v-1").data)) = "v" := by
  refine ⟨?_, ?_, ?_⟩ <;> decide

/-! ### List helpers for the path lemmas -/

theorem takeWhile_append_of_all {p : Char → Bool} :
    ∀ (l1 l2 : List Char), (∀ c ∈ l1, p c = true) →
      (l1 ++ l2).takeWhile p = l1 ++ l2.takeWhile p
  | [], l2, _ => rfl
  | c :: l1, l2, h => by
    rw [List.cons_append, List.takeWhile_cons, if_pos (h c (List.mem_cons_self c l1)),
      List.cons_append, takeWhile_append_of_all l1 l2
        (fun d hd => h d (List.mem_cons_of_mem c hd))]

theorem dropWhile_append_of_all {p : Char → Bool} :
    ∀ (l1 l2 : List Char), (∀ c ∈ l1, p c = true) →
      (l1 ++ l2).dropWhile p = l2.dropWhile p
  | [], l2, _ => rfl
  | c :: l1, l2, h => by
    rw [List.cons_append, List.dropWhile_cons, if_pos (h c (List.mem_cons_self c l1)),
      dropWhile_append_of_all l1 l2 (fun d hd => h d (List.mem_cons_of_mem c hd))]

/-- Joining after a final segment appends a slash and the segment. -/
theorem joinSlash_concat : ∀ (init : List (List Char)) (l : List Char), init ≠ [] →
    joinSlash (init ++ [l]) = joinSlash init ++ '/' :: l
  | [], _, h => absurd rfl h
  | [s], l, _ => rfl
  | s :: t :: ss, l, _ => by
    have ih := joinSlash_concat (t :: ss) l (by simp)
    show s ++ '/' :: joinSlash ((t :: ss) ++ [l]) = (s ++ '/' :: joinSlash (t :: ss)) ++ '/' :: l
    rw [ih, List.append_assoc]
    rfl

/-- The reverse of a joined segment list, last segment first. -/
theorem joinSlash_concat_reverse (init : List (List Char)) (l : List Char) (h : init ≠ []) :
    (joinSlash (init ++ [l])).reverse = l.reverse ++ '/' :: (joinSlash init).reverse := by
  rw [joinSlash_concat init l h, List.reverse_append, List.reverse_cons, List.append_assoc]
  rfl

/-- A well-formed joined segment list starts with a non-slash character. -/
theorem joinSlash_head : ∀ (segs : List (List Char)), segs ≠ [] →
    (∀ s ∈ segs, s ≠ [] ∧ '/' ∉ s) →
    ∃ c r, joinSlash segs = c :: r ∧ c ≠ '/'
  | [], h, _ => absurd rfl h
  | [s], _, hwf => by
    obtain ⟨hne, hns⟩ := hwf s (List.mem_singleton.mpr rfl)
    obtain ⟨c, r, hc⟩ := List.exists_cons_of_ne_nil hne
    exact ⟨c, r, hc, fun hcs => hns (hc ▸ (hcs ▸ List.mem_cons_self c r))⟩
  | s :: t :: ss, _, hwf => by
    obtain ⟨hne, hns⟩ := hwf s (List.mem_cons_self s (t :: ss))
    obtain ⟨c, r, hc⟩ := List.exists_cons_of_ne_nil hne
    refine ⟨c, r ++ '/' :: joinSlash (t :: ss), ?_, ?_⟩
    · show s ++ '/' :: joinSlash (t :: ss) = c :: (r ++ '/' :: joinSlash (t :: ss))
      rw [hc]
      rfl
    · exact fun hcs => hns (hc ▸ (hcs ▸ List.mem_cons_self c r))

/-- Base of a well-formed joined segment list is the last segment. -/
theorem goPathBase_joinSlash (segs : List (List Char)) (hne : segs ≠ [])
    (hwf : ∀ s ∈ segs, s ≠ [] ∧ '/' ∉ s) :
    goPathBase (joinSlash segs) = segs.getLastD [] := by
  rcases List.eq_nil_or_concat segs with h | ⟨init, l, h⟩
  · exact absurd h hne
  rw [List.concat_eq_append] at h
  subst h
  obtain ⟨hlne, hlns⟩ := hwf l (by simp)
  have hall : ∀ c ∈ l.reverse, (c != '/') = true := by
    intro c hc
    exact bne_iff_ne.mpr (fun he => hlns (he ▸ List.mem_reverse.mp hc))
  obtain ⟨c0, r0, hrev⟩ : ∃ c0 r0, l.reverse = c0 :: r0 :=
    List.exists_cons_of_ne_nil (fun hh => hlne (List.reverse_eq_nil_iff.mp hh))
  have hc0 : c0 ≠ '/' := by
    have := hall c0 (hrev ▸ List.mem_cons_self c0 r0)
    exact bne_iff_ne.mp this
  rw [List.getLastD_concat]
  by_cases hinit : init = []
  · subst hinit
    show goPathBase (joinSlash [l]) = l
    show goPathBase l = l
    rw [goPathBase, if_neg hlne]
    have hdrop : dropTrailSlashes l = l := by
      rw [dropTrailSlashes, hrev, List.dropWhile_cons_of_neg (by simp [hc0]),
        ← hrev, List.reverse_reverse]
    simp only [hdrop, if_neg hlne]
    rw [afterLastSlash, List.takeWhile_eq_self_iff.mpr hall, List.reverse_reverse]
  · have hrevj := joinSlash_concat_reverse init l hinit
    have hjne : joinSlash (init ++ [l]) ≠ [] := by
      intro hh
      rw [hh] at hrevj
      rw [hrev] at hrevj
      exact absurd hrevj.symm (by simp)
    rw [goPathBase, if_neg hjne]
    have hdrop : dropTrailSlashes (joinSlash (init ++ [l])) = joinSlash (init ++ [l]) := by
      rw [dropTrailSlashes, hrevj, hrev, List.cons_append,
        List.dropWhile_cons_of_neg (by simp [hc0]), ← List.cons_append, ← hrev, ← hrevj,
        List.reverse_reverse]
    simp only [hdrop, if_neg hjne]
    rw [afterLastSlash, hrevj, takeWhile_append_of_all _ _ hall,
      List.takeWhile_cons_of_neg (by simp), List.append_nil, List.reverse_reverse]

/-- Dir of a single well-formed segment has empty directory part. -/
theorem dirPart_no_slash (l : List Char) (h : '/' ∉ l) : dirPart l = [] := by
  rw [dirPart, List.dropWhile_eq_nil_iff.mpr, List.reverse_nil]
  intro c hc
  have hm : c ∈ l := List.mem_reverse.mp hc
  refine bne_iff_ne.mpr ?_
  intro he
  subst he
  exact h hm

/-- Directory part of a joined list with at least two segments: the
leading segments joined, plus the final slash. -/
theorem dirPart_concat (init : List (List Char)) (l : List Char) (hinit : init ≠ [])
    (hl : '/' ∉ l) :
    dirPart (joinSlash (init ++ [l])) = joinSlash init ++ ['/'] := by
  rw [dirPart, joinSlash_concat_reverse init l hinit,
    dropWhile_append_of_all _ _ (fun c hc => by
      refine bne_iff_ne.mpr ?_
      intro he
      subst he
      exact hl (List.mem_reverse.mp hc)),
    List.dropWhile_cons_of_neg (by simp), List.reverse_cons, List.reverse_reverse]

theorem splitSlash_ne_nil : ∀ cs : List Char, splitSlash cs ≠ []
  | [] => by simp [splitSlash]
  | c :: rest => by
    rw [splitSlash]
    cases h : splitSlash rest with
    | nil => simp
    | cons s ss => by_cases hc : c = '/' <;> simp [hc]

/-- Splitting distributes over a slash after a slash-free segment. -/
theorem splitSlash_seg_append : ∀ (s x : List Char), '/' ∉ s →
    splitSlash (s ++ '/' :: x) = s :: splitSlash x
  | [], x, _ => by
    show splitSlash ('/' :: x) = [] :: splitSlash x
    rw [splitSlash]
    cases h : splitSlash x with
    | nil => exact absurd h (splitSlash_ne_nil x)
    | cons u us => simp
  | c :: s, x, h => by
    have hc : c ≠ '/' := fun he => h (he ▸ List.mem_cons_self c s)
    show splitSlash (c :: (s ++ '/' :: x)) = (c :: s) :: splitSlash x
    rw [splitSlash, splitSlash_seg_append s x (fun hm => h (List.mem_cons_of_mem c hm))]
    simp [hc]

/-- Splitting a joined well-formed list with a trailing slash recovers
the segments plus one empty segment. -/
theorem splitSlash_joinSlash_slash : ∀ segs : List (List Char), segs ≠ [] →
    (∀ s ∈ segs, '/' ∉ s) →
    splitSlash (joinSlash segs ++ ['/']) = segs ++ [[]]
  | [], h, _ => absurd rfl h
  | [s], _, hwf => by
    show splitSlash (s ++ '/' :: []) = [s] ++ [[]]
    rw [splitSlash_seg_append s [] (hwf s (List.mem_singleton.mpr rfl))]
    rfl
  | s :: t :: ss, _, hwf => by
    show splitSlash ((s ++ '/' :: joinSlash (t :: ss)) ++ ['/']) = (s :: t :: ss) ++ [[]]
    rw [List.append_assoc, List.cons_append,
      splitSlash_seg_append s _ (hwf s (List.mem_cons_self s (t :: ss)))]
    have ih := splitSlash_joinSlash_slash (t :: ss) (by simp)
      (fun u hu => hwf u (List.mem_cons_of_mem s hu))
    rw [show joinSlash (t :: ss) ++ '/' :: [] = joinSlash (t :: ss) ++ ['/'] from rfl, ih]
    rfl

/-- The clean pass is the identity on well-formed segments followed by
one empty segment. -/
theorem cleanSegs_wf (rooted : Bool) :
    ∀ (segs : List (List Char)) (acc : List (List Char)),
      (∀ s ∈ segs, s ≠ [] ∧ s ≠ ['.'] ∧ s ≠ ['.', '.']) →
      cleanSegs rooted (segs ++ [[]]) acc = acc.reverse ++ segs
  | [], acc, _ => by
    rw [List.append_nil]
    rfl
  | s :: rest, acc, h => by
    obtain ⟨h1, h2, h3⟩ := h s (List.mem_cons_self s rest)
    rw [List.cons_append, cleanSegs, if_neg (by simp [h1, h2]), if_neg h3,
      cleanSegs_wf rooted rest (s :: acc) (fun u hu => h u (List.mem_cons_of_mem s hu)),
      List.reverse_cons, List.append_assoc]
    rfl

/-- A well-formed joined segment list is never the dot path. -/
theorem joinSlash_ne_dot : ∀ segs : List (List Char), segs ≠ [] →
    (∀ s ∈ segs, s ≠ [] ∧ '/' ∉ s ∧ s ≠ ['.']) →
    joinSlash segs ≠ ['.']
  | [], h, _ => absurd rfl h
  | [s], _, hwf => (hwf s (List.mem_singleton.mpr rfl)).2.2
  | s :: t :: ss, _, hwf => by
    obtain ⟨h1, _, _⟩ := hwf s (List.mem_cons_self s (t :: ss))
    intro h
    have hlen := congrArg List.length h
    rw [show joinSlash (s :: t :: ss) = s ++ '/' :: joinSlash (t :: ss) from rfl,
      List.length_append, List.length_cons] at hlen
    have : 1 ≤ s.length := List.length_pos.mpr h1
    simp at hlen
    omega

/-- Cleaning a well-formed joined segment list with a trailing slash
drops the slash and nothing else. -/
theorem goPathClean_joinSlash_slash (segs : List (List Char)) (hne : segs ≠ [])
    (hwf : ∀ s ∈ segs, s ≠ [] ∧ '/' ∉ s ∧ s ≠ ['.'] ∧ s ≠ ['.', '.']) :
    goPathClean (joinSlash segs ++ ['/']) = joinSlash segs := by
  obtain ⟨c, r, hcr, hc⟩ := joinSlash_head segs hne (fun s hs => ⟨(hwf s hs).1, (hwf s hs).2.1⟩)
  have hcons : joinSlash segs ++ ['/'] = c :: (r ++ ['/']) := by rw [hcr]; rfl
  rw [goPathClean, if_neg (by rw [hcons]; simp)]
  have hrooted : ((joinSlash segs ++ ['/']).head? == some '/') = false := by
    rw [hcons]
    simp [hc]
  rw [hrooted]
  simp only [Bool.false_eq_true, if_false]
  rw [splitSlash_joinSlash_slash segs hne (fun s hs => (hwf s hs).2.1),
    cleanSegs_wf false segs [] (fun s hs => ⟨(hwf s hs).1, (hwf s hs).2.2.1, (hwf s hs).2.2.2⟩)]
  show (if joinSlash segs = [] then ['.'] else joinSlash segs) = joinSlash segs
  rw [if_neg (by rw [hcr]; simp)]

/-- Dir of a single-segment path is dot. -/
theorem goPathDir_single (l : List Char) (h : '/' ∉ l) : goPathDir (joinSlash [l]) = ['.'] := by
  show goPathDir l = ['.']
  rw [goPathDir, dirPart_no_slash l h]
  rfl

/-- Dir of a well-formed joined path with at least two segments is the
joined leading segments. -/
theorem goPathDir_concat (init : List (List Char)) (l : List Char) (hinit : init ≠ [])
    (hwfinit : ∀ s ∈ init, s ≠ [] ∧ '/' ∉ s ∧ s ≠ ['.'] ∧ s ≠ ['.', '.'])
    (hl : '/' ∉ l) :
    goPathDir (joinSlash (init ++ [l])) = joinSlash init := by
  rw [goPathDir, dirPart_concat init l hinit hl,
    goPathClean_joinSlash_slash init hinit hwfinit]

theorem specBaseSeg_concat (v : List Char → Bool) (init : List (List Char)) (l : List Char)
    (h : init ≠ []) :
    specBaseSeg v (init ++ [l]) = if v l then init.getLastD [] else l := by
  obtain ⟨p, r, hpr⟩ := List.exists_cons_of_ne_nil
    (fun hh => h (List.reverse_eq_nil_iff.mp hh))
  have hinit : init = r.reverse ++ [p] := by
    rw [← List.reverse_reverse init, hpr, List.reverse_cons]
  have hscrut : (init ++ [l]).reverse = l :: p :: r := by
    rw [List.reverse_append]
    simp [hpr]
  simp only [specBaseSeg, hscrut]
  rw [hinit, List.getLastD_concat]

/-- C6 amended: on every well-formed slash-separated path (nonempty
segments, none a slash, dot or dotdot), the inferred package name is
exactly the claimed pipeline, with the one correction the
counterexample forces: the dropped trailing segment is one whose
remainder after the letter v is accepted by strconv.Atoi (optional
sign, one or more digits, within the signed 64-bit range), not exactly
the v-digits form the claim states.  Inference is a pure function of
the path string by construction. -/
theorem assumed_name_amended (uni : Char → Bool) (segs : List (List Char))
    (hne : segs ≠ [])
    (hwf : ∀ s ∈ segs, s ≠ [] ∧ '/' ∉ s ∧ s ≠ ['.'] ∧ s ≠ ['.', '.']) :
    (AssumedPackageName uni (String.mk (joinSlash segs))).name =
      String.mk (specInferName uni vAtoiSeg segs) := by
  have hvb : versionAdjustedBase (joinSlash segs) = specBaseSeg vAtoiSeg segs := by
    rcases List.eq_nil_or_concat segs with h | ⟨init, l, h⟩
    · exact absurd h hne
    rw [List.concat_eq_append] at h
    subst h
    have hl := hwf l (by simp)
    have hbase : goPathBase (joinSlash (init ++ [l])) = l := by
      rw [goPathBase_joinSlash (init ++ [l]) hne
        (fun s hs => ⟨(hwf s hs).1, (hwf s hs).2.1⟩), List.getLastD_concat]
    by_cases hinit : init = []
    · subst hinit
      simp only [List.nil_append] at hbase ⊢
      have hdir : goPathDir (joinSlash [l]) = ['.'] := goPathDir_single l hl.2.1
      simp only [versionAdjustedBase, hbase, hdir]
      simp [specBaseSeg]
    · have hwfinit : ∀ s ∈ init, s ≠ [] ∧ '/' ∉ s ∧ s ≠ ['.'] ∧ s ≠ ['.', '.'] :=
        fun s hs => hwf s (List.mem_append_left _ hs)
      have hdir : goPathDir (joinSlash (init ++ [l])) = joinSlash init :=
        goPathDir_concat init l hinit hwfinit hl.2.1
      have hdir2 : joinSlash init ≠ ['.'] :=
        joinSlash_ne_dot init hinit
          (fun s hs => ⟨(hwfinit s hs).1, (hwfinit s hs).2.1, (hwfinit s hs).2.2.1⟩)
      have hpb : goPathBase (joinSlash init) = init.getLastD [] :=
        goPathBase_joinSlash init hinit (fun s hs => ⟨(hwfinit s hs).1, (hwfinit s hs).2.1⟩)
      simp only [versionAdjustedBase, hbase, hdir, hpb]
      rw [specBaseSeg_concat vAtoiSeg init l hinit]
      by_cases hv : vAtoiSeg l <;> simp [hv, hdir2]
  show String.mk ((trimGoDash (versionAdjustedBase (joinSlash segs))).takeWhile
      (fun c => !notIdentifier uni c)) =
    String.mk ((trimGoDash (specBaseSeg vAtoiSeg segs)).takeWhile
      (fun c => !notIdentifier uni c))
  rw [hvb]

/-- Witness for the amended C6 on the path ex/go-a.b/v2: both the code
and the amended rule infer the name a (drop the version segment, use the
parent, strip go-, truncate at the dot). -/
theorem assumed_name_amended_witness :
    (AssumedPackageName (fun _ => false)
        (String.mk (joinSlash [['e', 'x'], ['g', 'o', '-', 'a', '.', 'b'], ['v', '2']]))).name =
      String.mk (specInferName (fun _ => false) vAtoiSeg
        [['e', 'x'], ['g', 'o', '-', 'a', '.', 'b'], ['v', '2']]) ∧
    (AssumedPackageName (fun _ => false) "ex/go-a.b/v2").name = "a" :=
  ⟨assumed_name_amended (fun _ => false)
      [['e', 'x'], ['g', 'o', '-', 'a', '.', 'b'], ['v', '2']] (by simp) (by decide),
    by decide⟩

/-! ### C8: the unused-import pruner

The pruner operates on a parsed Go file through the external go/ast and
astutil services.  The embedding keeps of a parsed file exactly what the
pruner inspects: its import declarations (name empty when the import has
no explicit name, path unquoted) and its selector expressions together
with the two facts the collector tests on each (whether the left
identifier resolves to a local object, and the selector name).  `isUp`
is the environment classifier for non-ASCII uppercase letters, used by
ast.IsExported. -/

/-- One import declaration as the pruner sees it
(unusedimports.go lines 80 to 83). -/
structure GoImportDecl where
  name : String
  path : String
deriving DecidableEq, Repr

/-- One selector expression with the resolution fact the collector
consults (unusedimports.go lines 142 to 150): `xIsLocal` models a
non-nil `Obj` on the left identifier. -/
structure GoSelectorExpr where
  x : String
  sel : String
  xIsLocal : Bool
deriving DecidableEq, Repr

/-- A parsed file, reduced to what pruneAlreadyParsed reads. -/
structure GoFile where
  imports : List GoImportDecl
  exprs : List GoSelectorExpr
deriving DecidableEq, Repr

/-- Models ast.IsExported: unicode.IsUpper of the first character,
ASCII handled directly and characters at or above 0x80 through the
environment classifier. -/
def goIsExported (isUp : Char → Bool) (s : String) : Bool :=
  match s.data with
  | [] => false
  | c :: _ => if c.toNat < 0x80 then c.isUpper else isUp c

/-- collectReferences (unusedimports.go lines 133 to 167): the selector
expressions whose left identifier does not resolve locally and whose
selector is exported, as (alias, selector) pairs. -/
def collectReferences (isUp : Char → Bool) (f : GoFile) : List (String × String) :=
  (f.exprs.filter (fun e => !e.xIsLocal && goIsExported isUp e.sel)).map
    (fun e => (e.x, e.sel))

/-- Membership test of the references map on its first key. -/
def refsHas (refs : List (String × String)) (id : String) : Bool :=
  refs.any (fun r => r.1 == id)

/-- collectImports (unusedimports.go lines 107 to 124): every import
except the C pseudo-import, discard imports and dot imports. -/
def collectImports (f : GoFile) : List GoImportDecl :=
  f.imports.filter (fun imp => !(imp.path == "C" || imp.name == "_" || imp.name == "."))

/-- importIdentifier (unusedimports.go lines 172 to 181) for the empty
knownPackages map pruneAlreadyParsed constructs: the explicit name when
set, else the assumed package name of the path. -/
def importIdentifier (uni : Char → Bool) (imp : GoImportDecl) : String :=
  if imp.name ≠ "" then imp.name else (AssumedPackageName uni imp.path).name

/-- Insertion into the map model of `existingImports`: overwrite in
place when the key is present, append otherwise. -/
def insertOver : List (String × GoImportDecl) → String → GoImportDecl →
    List (String × GoImportDecl)
  | [], k, v => [(k, v)]
  | (k2, v2) :: rest, k, v =>
    if k2 = k then (k2, v) :: rest else (k2, v2) :: insertOver rest k v

/-- Models astutil.DeleteNamedImport: remove every import spec with the
given name and path; the Bool result of the Go function becomes
Option, `none` when nothing was deleted. -/
def deleteNamedImport (f : GoFile) (name path : String) : Option GoFile :=
  if f.imports.any (fun d => d.name == name && d.path == path) then
    some { f with imports :=
      f.imports.filter (fun d => !(d.name == name && d.path == path)) }
  else none

/-- pruneAlreadyParsed (unusedimports.go lines 39 to 71): build the
references and the by-identifier map of collected imports, mark every
map entry whose identifier has no reference, and delete the marked
  imports; a failing deletion is the error on line 66. -/
def pruneAlreadyParsed (uni isUp : Char → Bool) (f : GoFile) : Except String GoFile :=
  let refs := collectReferences isUp f
  let imports := collectImports f
  let existingImports := imports.foldl
    (fun m imp => insertOver m (importIdentifier uni imp) imp) []
  let fixes := (existingImports.filter
    (fun e => !refsHas refs (importIdentifier uni e.2))).map (fun e => e.2)
  fixes.foldlM (fun file fix =>
    match deleteNamedImport file fix.name fix.path with
    | some f2 => Except.ok f2
    | none => Except.error "tried to delete import and failed") f

/-- Retention condition exactly as claim C8 words it: the C
pseudo-import, discard imports and dot imports are always kept, and
otherwise an import is kept exactly when its effective alias has a
recorded qualified reference. -/
def claimKeep (uni isUp : Char → Bool) (f : GoFile) (d : GoImportDecl) : Bool :=
  d.path == "C" || d.name == "_" || d.name == "." ||
    refsHas (collectReferences isUp f) (importIdentifier uni d)

/-- File with two unreferenced imports sharing the effective alias foo. -/
def dupAliasFile : GoFile :=
  { imports := [⟨"foo", "a/x"⟩, ⟨"foo", "b/y"⟩], exprs := [] }

/-- C8 counterexample: with two unused imports sharing one effective
alias, the by-identifier map keeps only the later one, so pruning
deletes only that one; the claim as stated demands that both be
deleted.  The pruned file is not the claimed filter of the imports. -/
theorem prune_counterexample :
    pruneAlreadyParsed (fun _ => false) (fun _ => false) dupAliasFile ≠
      Except.ok { dupAliasFile with imports :=
        (dupAliasFile.imports.filter
          (claimKeep (fun _ => false) (fun _ => false) dupAliasFile)) } ∧
    pruneAlreadyParsed (fun _ => false) (fun _ => false) dupAliasFile =
      Except.ok { imports := [⟨"foo", "a/x"⟩], exprs := [] } ∧
    dupAliasFile.imports.filter
      (claimKeep (fun _ => false) (fun _ => false) dupAliasFile) = [] := by
  refine ⟨?_, rfl, by decide⟩
  intro h
  rw [show pruneAlreadyParsed (fun _ => false) (fun _ => false) dupAliasFile =
    Except.ok (⟨[⟨"foo", "a/x"⟩], []⟩ : GoFile) from rfl] at h
  injection h with h3
  exact absurd h3 (by decide)

theorem insertOver_notMem :
    ∀ (m : List (String × GoImportDecl)) (k : String) (v : GoImportDecl),
      (∀ e ∈ m, e.1 ≠ k) → insertOver m k v = m ++ [(k, v)]
  | [], _, _, _ => rfl
  | (k2, v2) :: rest, k, v, h => by
    rw [insertOver, if_neg (h (k2, v2) (List.mem_cons_self _ _)),
      insertOver_notMem rest k v (fun e he => h e (List.mem_cons_of_mem _ he))]
    rfl

theorem foldl_insertOver (idf : GoImportDecl → String) :
    ∀ (c : List GoImportDecl) (m : List (String × GoImportDecl)),
      (c.map idf).Nodup →
      (∀ e ∈ m, ∀ d ∈ c, e.1 ≠ idf d) →
      c.foldl (fun m2 imp => insertOver m2 (idf imp) imp) m =
        m ++ c.map (fun imp => (idf imp, imp))
  | [], m, _, _ => by simp
  | d :: c, m, hnd, hdisj => by
    rw [List.map_cons, List.nodup_cons] at hnd
    rw [List.foldl_cons,
      insertOver_notMem m (idf d) d (fun e he => hdisj e he d (List.mem_cons_self d c)),
      foldl_insertOver idf c (m ++ [(idf d, d)]) hnd.2 ?_]
    · simp
    · intro e he d2 hd2
      rcases List.mem_append.mp he with h1 | h1
      · exact hdisj e h1 d2 (List.mem_cons_of_mem d hd2)
      · simp only [List.mem_singleton] at h1
        subst h1
        intro heq
        have heq2 : idf d = idf d2 := heq
        exact hnd.1 (by rw [heq2]; exact List.mem_map_of_mem idf hd2)

theorem deleteNamedImport_mem (g : GoFile) (u : GoImportDecl) (hu : u ∈ g.imports) :
    deleteNamedImport g u.name u.path =
      some { g with imports :=
        g.imports.filter (fun d => !(d.name == u.name && d.path == u.path)) } := by
  rw [deleteNamedImport, if_pos]
  exact List.any_eq_true.mpr ⟨u, hu, by simp⟩

theorem foldlM_delete :
    ∀ (fixes : List GoImportDecl) (g : GoFile),
      (∀ u ∈ fixes, u ∈ g.imports) →
      List.Pairwise (fun u v => ¬(u.name = v.name ∧ u.path = v.path)) fixes →
      (fixes.foldlM (fun file fix =>
        match deleteNamedImport file fix.name fix.path with
        | some f2 => Except.ok f2
        | none => Except.error "tried to delete import and failed") g :
          Except String GoFile) =
      Except.ok { g with imports :=
        (g.imports.filter
          (fun d => fixes.all (fun u => !(d.name == u.name && d.path == u.path)))) }
  | [], g, _, _ => by
    show Except.ok g = _
    simp [List.all_nil, List.filter_true]
  | u :: fixes, g, hmem, hpw => by
    have hdel := deleteNamedImport_mem g u (hmem u (List.mem_cons_self u fixes))
    rw [List.foldlM_cons, hdel]
    show (fixes.foldlM _
      { g with imports :=
        (g.imports.filter (fun d => !(d.name == u.name && d.path == u.path))) } :
        Except String GoFile) = _
    rw [foldlM_delete fixes _ ?_ (List.pairwise_cons.mp hpw).2]
    · show Except.ok _ = Except.ok _
      rw [Except.ok.injEq]
      show { g with imports := _ } = { g with imports := _ }
      rw [GoFile.mk.injEq]
      refine ⟨?_, rfl⟩
      rw [List.filter_filter]
      refine List.filter_congr ?_
      intro d _
      rw [List.all_cons, Bool.and_comm]
    · intro v hv
      refine List.mem_filter.mpr ⟨hmem v (List.mem_cons_of_mem u hv), ?_⟩
      have hne := (List.pairwise_cons.mp hpw).1 v hv
      by_cases hn : v.name = u.name
      · by_cases hp : v.path = u.path
        · exact absurd ⟨hn.symm, hp.symm⟩ hne
        · simp [hp]
      · simp [hn]

theorem fixes_all_eq_claimKeep (uni isUp : Char → Bool) (f : GoFile)
    (d : GoImportDecl) (hd : d ∈ f.imports) :
    ((collectImports f).filter
      (fun d2 => !refsHas (collectReferences isUp f) (importIdentifier uni d2))).all
        (fun u => !(d.name == u.name && d.path == u.path)) =
    claimKeep uni isUp f d := by
  by_cases hex : (d.path == "C" || d.name == "_" || d.name == ".") = true
  · have hck : claimKeep uni isUp f d = true := by
      rw [claimKeep, hex]
      rfl
    rw [hck, List.all_eq_true]
    intro u hu
    have huc : u ∈ collectImports f := List.mem_of_mem_filter hu
    have hune := (List.mem_filter.mp (show u ∈ f.imports.filter _ from huc)).2
    by_cases hn : d.name = u.name
    · by_cases hp : d.path = u.path
      · exfalso
        rw [Bool.not_eq_true'] at hune
        rw [← hn, ← hp] at hune
        rw [hune] at hex
        exact Bool.false_ne_true hex
      · simp [hp]
    · simp [hn]
  · have hex2 : (d.path == "C" || d.name == "_" || d.name == ".") = false := by
      revert hex
      cases d.path == "C" || d.name == "_" || d.name == "." <;> simp
    have hdc : d ∈ collectImports f := List.mem_filter.mpr ⟨hd, by rw [hex2]; rfl⟩
    have hck : claimKeep uni isUp f d =
        refsHas (collectReferences isUp f) (importIdentifier uni d) := by
      rw [claimKeep, hex2]
      rfl
    rw [hck]
    by_cases hr : refsHas (collectReferences isUp f) (importIdentifier uni d) = true
    · rw [hr, List.all_eq_true]
      intro u hu
      obtain ⟨huc, hur⟩ := List.mem_filter.mp hu
      by_cases hn : d.name = u.name
      · by_cases hp : d.path = u.path
        · exfalso
          have hud : u = d := by cases u; cases d; simp_all
          rw [hud, Bool.not_eq_true'] at hur
          rw [hur] at hr
          exact Bool.false_ne_true hr
        · simp [hp]
      · simp [hn]
    · have hr2 : refsHas (collectReferences isUp f) (importIdentifier uni d) = false := by
        revert hr
        cases refsHas (collectReferences isUp f) (importIdentifier uni d) <;> simp
      rw [hr2]
      have hdf : d ∈ (collectImports f).filter
          (fun d2 => !refsHas (collectReferences isUp f) (importIdentifier uni d2)) :=
        List.mem_filter.mpr ⟨hdc, by rw [hr2]; rfl⟩
      exact List.all_eq_false.mpr ⟨d, hdf, by simp⟩

/-- C8 amended: provided the collected imports have pairwise distinct
effective aliases, pruning deletes exactly the import declarations
whose effective alias has no recorded qualified reference, and always
retains discard imports, dot imports and the C pseudo-import.  The
proviso is what the counterexample forces: with duplicate effective
aliases the by-identifier map keeps one entry per alias and only
that one is deleted. -/
theorem prune_amended (uni isUp : Char → Bool) (f : GoFile)
    (hnd : ((collectImports f).map (importIdentifier uni)).Nodup) :
    pruneAlreadyParsed uni isUp f =
      Except.ok { f with imports := (f.imports.filter (claimKeep uni isUp f)) } := by
  have hfold := foldl_insertOver (importIdentifier uni) (collectImports f) [] hnd
    (fun e he => absurd he (List.not_mem_nil e))
  have hfixes :
      (((collectImports f).map (fun imp => (importIdentifier uni imp, imp))).filter
        (fun e => !refsHas (collectReferences isUp f) (importIdentifier uni e.2))).map
          (fun e => e.2) =
      (collectImports f).filter
        (fun d => !refsHas (collectReferences isUp f) (importIdentifier uni d)) := by
    simp [List.filter_map, List.map_map, Function.comp_def, List.map_id']
  have h1 : ∀ u ∈ (collectImports f).filter
      (fun d => !refsHas (collectReferences isUp f) (importIdentifier uni d)),
      u ∈ f.imports :=
    fun u hu => List.mem_of_mem_filter (List.mem_of_mem_filter hu)
  have hpw : List.Pairwise (fun u v => ¬(u.name = v.name ∧ u.path = v.path))
      ((collectImports f).filter
        (fun d => !refsHas (collectReferences isUp f) (importIdentifier uni d))) := by
    have hsub := (List.filter_sublist (p :=
      fun d => !refsHas (collectReferences isUp f) (importIdentifier uni d))
      (collectImports f)).map (importIdentifier uni)
    have hnd2 := List.Nodup.sublist hsub hnd
    have hpw2 := List.pairwise_map.mp hnd2
    refine hpw2.imp ?_
    intro a b hne hab
    apply hne
    obtain ⟨hn, hp⟩ := hab
    have hab2 : a = b := by cases a; cases b; simp_all
    rw [hab2]
  simp only [pruneAlreadyParsed]
  rw [hfold, List.nil_append, hfixes, foldlM_delete _ f h1 hpw]
  refine congrArg Except.ok ?_
  show { f with imports := _ } = { f with imports := _ }
  rw [GoFile.mk.injEq]
  refine ⟨?_, rfl⟩
  exact List.filter_congr (fun d hd => fixes_all_eq_claimKeep uni isUp f d hd)

/-- File with an unused fmt import and an os import used through
os.Open. -/
def fmtOsFile : GoFile :=
  { imports := [⟨"", "fmt"⟩, ⟨"", "os"⟩],
    exprs := [⟨"os", "Open", false⟩] }

/-- Witness for the amended C8: pruning the fmt-and-os file keeps only
the os import. -/
theorem prune_amended_witness :
    pruneAlreadyParsed (fun _ => false) (fun _ => false) fmtOsFile =
      Except.ok { imports := [⟨"", "os"⟩], exprs := [⟨"os", "Open", false⟩] } :=
  prune_amended (fun _ => false) (fun _ => false) fmtOsFile (by decide)
